import Mathlib

/-!
Verification of the OpenShare secure transfer pipeline (chunk store,
manifest, framed transport, handshake, transfer protocol) against its
natural-language specification.  The Rust sources are shallowly embedded:
byte strings are lists of naturals below 256, strings are lists of
characters, the filesystem chunk store is an association list from paths
to byte strings, and the cryptographic primitives SHA-256, HMAC-SHA256 and
HKDF-SHA256 are implemented executably from FIPS 180-4 / 198-1 / RFC 5869,
exactly as the `sha2`, `hmac` and `hkdf` crates compute them.  Ed25519 and
X25519 are abstracted as function-valued schemes, with the algebraic
facts the claims need (correctness, key binding, commutativity of the
Diffie-Hellman exchange) taken as explicit hypotheses that concrete toy
schemes discharge in the witnesses.
-/

set_option maxRecDepth 40000

namespace OpenShare

/-- A byte string: each element is a byte value below 256. -/
abbrev Bytes := List Nat

/-- The 32-bit modulus used for all SHA-256 word arithmetic. -/
def M32 : Nat := 2 ^ 32

/-- Right rotation of a 32-bit word by n bits. -/
def rotr (n x : Nat) : Nat := ((x >>> n) ||| (x <<< (32 - n))) % M32

/-- SHA-256 choice function Ch. -/
def shaCh (x y z : Nat) : Nat := (x &&& y) ^^^ ((M32 - 1 - x % M32) &&& z)

/-- SHA-256 majority function Maj. -/
def shaMaj (x y z : Nat) : Nat := (x &&& y) ^^^ (x &&& z) ^^^ (y &&& z)

/-- SHA-256 big sigma 0. -/
def bsig0 (x : Nat) : Nat := rotr 2 x ^^^ rotr 13 x ^^^ rotr 22 x

/-- SHA-256 big sigma 1. -/
def bsig1 (x : Nat) : Nat := rotr 6 x ^^^ rotr 11 x ^^^ rotr 25 x

/-- SHA-256 small sigma 0. -/
def ssig0 (x : Nat) : Nat := rotr 7 x ^^^ rotr 18 x ^^^ (x >>> 3)

/-- SHA-256 small sigma 1. -/
def ssig1 (x : Nat) : Nat := rotr 17 x ^^^ rotr 19 x ^^^ (x >>> 10)

/-- The 64 SHA-256 round constants. -/
def sha256K : List Nat :=
  [1116352408, 1899447441, 3049323471, 3921009573, 961987163, 1508970993,
   2453635748, 2870763221, 3624381080, 310598401, 607225278, 1426881987,
   1925078388, 2162078206, 2614888103, 3248222580, 3835390401, 4022224774,
   264347078, 604807628, 770255983, 1249150122, 1555081692, 1996064986,
   2554220882, 2821834349, 2952996808, 3210313671, 3336571891, 3584528711,
   113926993, 338241895, 666307205, 773529912, 1294757372, 1396182291,
   1695183700, 1986661051, 2177026350, 2456956037, 2730485921, 2820302411,
   3259730800, 3345764771, 3516065817, 3600352804, 4094571909, 275423344,
   430227734, 506948616, 659060556, 883997877, 958139571, 1322822218,
   1537002063, 1747873779, 1955562222, 2024104815, 2227730452, 2361852424,
   2428436474, 2756734187, 3204031479, 3329325298]

/-- Working state of the SHA-256 compression function: eight 32-bit words. -/
structure Hash8 where
  a : Nat
  b : Nat
  c : Nat
  d : Nat
  e : Nat
  f : Nat
  g : Nat
  h : Nat
  deriving Repr, DecidableEq

/-- Initial SHA-256 hash value. -/
def sha256H0 : Hash8 :=
  ⟨1779033703, 3144134277, 1013904242, 2773480762,
   1359893119, 2600822924, 528734635, 1541459225⟩

/-- One round of the SHA-256 compression function with round constant k and schedule word w. -/
def sha256Step (s : Hash8) (k w : Nat) : Hash8 :=
  let t1 := (s.h + bsig1 s.e + shaCh s.e s.f s.g + k + w) % M32
  let t2 := (bsig0 s.a + shaMaj s.a s.b s.c) % M32
  ⟨(t1 + t2) % M32, s.a, s.b, s.c, (s.d + t1) % M32, s.e, s.f, s.g⟩

/-- Componentwise 32-bit addition of two hash states. -/
def add8 (x y : Hash8) : Hash8 :=
  ⟨(x.a + y.a) % M32, (x.b + y.b) % M32, (x.c + y.c) % M32, (x.d + y.d) % M32,
   (x.e + y.e) % M32, (x.f + y.f) % M32, (x.g + y.g) % M32, (x.h + y.h) % M32⟩

/-- Group a byte list into big-endian 32-bit words, discarding a ragged tail. -/
def bytesToWords : List Nat → List Nat
  | a :: b :: c :: d :: rest => (((a * 256 + b) * 256 + c) * 256 + d) :: bytesToWords rest
  | _ => []

/-- Extend the 16 message words to the 64-entry SHA-256 message schedule. -/
def sha256Schedule (ws : List Nat) : List Nat :=
  (List.range 48).foldl
    (fun acc _ =>
      let n := acc.length
      acc ++ [(ssig1 (acc.getD (n - 2) 0) + acc.getD (n - 7) 0 +
               ssig0 (acc.getD (n - 15) 0) + acc.getD (n - 16) 0) % M32])
    ws

/-- Big-endian 8-byte encoding of a 64-bit value. -/
def u64be (n : Nat) : Bytes :=
  [n / 2 ^ 56 % 256, n / 2 ^ 48 % 256, n / 2 ^ 40 % 256, n / 2 ^ 32 % 256,
   n / 2 ^ 24 % 256, n / 2 ^ 16 % 256, n / 2 ^ 8 % 256, n % 256]

/-- Big-endian 4-byte encoding of a 32-bit word. -/
def w32be (n : Nat) : Bytes := [n / 2 ^ 24 % 256, n / 2 ^ 16 % 256, n / 2 ^ 8 % 256, n % 256]

/-- SHA-256 padding: append 0x80, zero bytes to 56 mod 64, then the bit length. -/
def sha256Pad (msg : Bytes) : Bytes :=
  msg ++ 128 :: List.replicate ((119 - msg.length % 64) % 64) 0 ++ u64be (8 * msg.length)

/-- Window-splitting loop, structurally recursive on an iteration budget so
that it reduces in the kernel.  Each iteration takes one window of cs
elements; an empty remainder or a zero window size stops the loop, mirroring
a read that returns zero bytes. -/
def chunksOfAux {α : Type} (cs : Nat) : Nat → List α → List (List α)
  | _, [] => []
  | 0, _ :: _ => []
  | fuel + 1, x :: xs =>
    if cs = 0 then []
    else List.take cs (x :: xs) :: chunksOfAux cs fuel (List.drop cs (x :: xs))

/-- Split a list into consecutive windows of cs elements; the final window may
be shorter.  The list length bounds the number of iterations. -/
def chunksOf {α : Type} (cs : Nat) (l : List α) : List (List α) :=
  chunksOfAux cs l.length l

/-- Compress one 64-byte block into the running hash state. -/
def sha256Block (st : Hash8) (blk : Bytes) : Hash8 :=
  add8 st (((sha256K.zip (sha256Schedule (bytesToWords blk)))).foldl
    (fun s p => sha256Step s p.1 p.2) st)

/-- SHA-256 digest of a byte string, as 32 bytes (FIPS 180-4). -/
def sha256 (msg : Bytes) : Bytes :=
  let fin := (chunksOf 64 (sha256Pad msg)).foldl sha256Block sha256H0
  w32be fin.a ++ w32be fin.b ++ w32be fin.c ++ w32be fin.d ++
  w32be fin.e ++ w32be fin.f ++ w32be fin.g ++ w32be fin.h

/-- The sixteen lowercase hexadecimal digit characters. -/
def hexChars : List Char := "0123456789abcdef".toList

/-- Lowercase hexadecimal digit for a nibble. -/
def hexDigit (n : Nat) : Char := hexChars.getD n '0'

/-- Lowercase hexadecimal rendering of a byte string, two digits per byte,
as produced by hex encode in the source. -/
def hexEncode (b : Bytes) : List Char :=
  b.flatMap (fun x => [hexDigit (x / 16 % 16), hexDigit (x % 16)])

/-- Chunk id of a byte string: lowercase hex SHA-256. -/
def sha256Hex (b : Bytes) : List Char := hexEncode (sha256 b)

/-- HMAC-SHA256 (FIPS 198-1) with the usual 64-byte block, as the hmac crate
computes it. -/
def hmacSha256 (key msg : Bytes) : Bytes :=
  let k0 := if 64 < key.length then sha256 key else key
  let kp := k0 ++ List.replicate (64 - k0.length) 0
  sha256 ((kp.map (fun x => x ^^^ 0x5c)) ++ sha256 ((kp.map (fun x => x ^^^ 0x36)) ++ msg))

/-- HKDF-SHA256 extract-and-expand to 32 bytes (RFC 5869) with an absent
salt, which the hkdf crate replaces by 32 zero bytes; this is exactly the
derivation Hkdf new None ikm followed by expand info into a 32-byte key. -/
def hkdfSha256 (ikm info : Bytes) : Bytes :=
  hmacSha256 (hmacSha256 (List.replicate 32 0) ikm) (info ++ [1])

/-!
Chunk store (crates/storage/src/lib.rs, LocalStorage).  The filesystem under
the chunks directory is an association list from relative paths to byte
strings; a fresh write shadows an older entry at the same path, as fs write
overwrites.
-/
/-- A string, modelled as its character list. -/
abbrev Str := List Char

/-- The filesystem under the chunks directory: path to contents. -/
abbrev FS := List (Str × Bytes)

/-- Association-list lookup by path. -/
def lookupFS : FS → Str → Option Bytes
  | [], _ => none
  | (k, v) :: rest, key => if k = key then some v else lookupFS rest key

/-- Relative path of a chunk: the first two characters of the id as a
subdirectory, then the id itself (LocalStorage chunk path). -/
def chunk_path (id : Str) : Str := id.take 2 ++ '/' :: id

/-- Storage errors: underlying I/O failure (never produced by this model,
which has no failing disk). -/
inductive StorageErr
  | ioFailure
  deriving Repr, DecidableEq

/-- LocalStorage put: hash the data with SHA-256, hex encode to get the
chunk id, write the data at the chunk path, return the id. -/
def put_chunk (fs : FS) (data : Bytes) : FS × Str :=
  let chunk_id := sha256Hex data
  ((chunk_path chunk_id, data) :: fs, chunk_id)

/-- LocalStorage get: if the chunk path does not exist return none (absence
is not an error); otherwise read and return the contents. -/
def get_chunk (fs : FS) (id : Str) : Except StorageErr (Option Bytes) :=
  match lookupFS fs (chunk_path id) with
  | none => .ok none
  | some data => .ok (some data)

/-- A store obtained by a sequence of puts into an empty chunks directory. -/
def runPuts (bs : List Bytes) : FS :=
  bs.foldl (fun fs b => (put_chunk fs b).1) []

/-!
Manifest (crates/openshare-core/src/manifest.rs).  Serialization follows the
bincode 1.x default encoding: u64 little-endian lengths and integers, strings
as length-prefixed UTF-8, Option as a one-byte tag followed by the payload,
fields in declaration order.  The Ed25519 identity is abstracted as a
function-valued signature scheme over byte strings.
-/
/-- Little-endian 8-byte encoding of a 64-bit value. -/
def u64le (n : Nat) : Bytes :=
  [n % 256, n / 2 ^ 8 % 256, n / 2 ^ 16 % 256, n / 2 ^ 24 % 256,
   n / 2 ^ 32 % 256, n / 2 ^ 40 % 256, n / 2 ^ 48 % 256, n / 2 ^ 56 % 256]

/-- UTF-8 encoding of one character. -/
def utf8Char (c : Char) : Bytes :=
  let n := c.toNat
  if n < 0x80 then [n]
  else if n < 0x800 then [0xc0 + n / 64, 0x80 + n % 64]
  else if n < 0x10000 then [0xe0 + n / 4096, 0x80 + n / 64 % 64, 0x80 + n % 64]
  else [0xf0 + n / 262144, 0x80 + n / 4096 % 64, 0x80 + n / 64 % 64, 0x80 + n % 64]

/-- UTF-8 encoding of a string. -/
def utf8 (s : Str) : Bytes := s.flatMap utf8Char

/-- Bincode byte vector: u64 little-endian length, then the bytes. -/
def bcBytes (b : Bytes) : Bytes := u64le b.length ++ b

/-- Bincode string: u64 little-endian byte length, then the UTF-8 bytes. -/
def bcStr (s : Str) : Bytes := bcBytes (utf8 s)

/-- Bincode Option: tag byte 0 for None, 1 followed by the payload for Some. -/
def bcOpt {α : Type} (f : α → Bytes) : Option α → Bytes
  | none => [0]
  | some x => 1 :: f x

/-- The manifest record: filename, size, ordered chunk hashes, optional
signature and optional sender public key, exactly the Rust struct fields. -/
structure Manifest where
  filename : Str
  size : Nat
  chunk_hashes : List Str
  sender_sig : Option Bytes
  sender_pubkey : Option Bytes
  deriving Repr, DecidableEq

/-- Bincode serialization of a manifest, fields in declaration order. -/
def bincodeManifest (m : Manifest) : Bytes :=
  bcStr m.filename ++ u64le m.size ++
  u64le m.chunk_hashes.length ++ m.chunk_hashes.flatMap bcStr ++
  bcOpt bcBytes m.sender_sig ++ bcOpt bcBytes m.sender_pubkey

/-- An Ed25519-style signature scheme over byte strings: derive the public
key bytes from the secret key bytes, sign deterministically, verify.
Parsing of the public key is folded into verification, which returns false
on an unparseable key exactly as the dalek verification path errors. -/
structure SigScheme where
  pubkey : Bytes → Bytes
  sign : Bytes → Bytes → Bytes
  verify : Bytes → Bytes → Bytes → Bool

/-- Manifest verification errors (manifest.rs verify and verify_with_pubkey). -/
inductive VerifyErr
  | missingSignature
  | missingPubkey
  | invalidPubkeyLength
  | invalidSigLength
  | invalidSignature
  deriving Repr, DecidableEq

/-- Manifest sign: store the sender public key, serialize a copy with the
signature cleared, sign those bytes, store the signature. -/
def signManifest (S : SigScheme) (sk : Bytes) (m : Manifest) : Manifest :=
  let m1 := { m with sender_pubkey := some (S.pubkey sk) }
  let ser := bincodeManifest { m1 with sender_sig := none }
  { m1 with sender_sig := some (S.sign sk ser) }

/-- The canonical bytes that signing covers: the manifest with the sender
public key populated and the signature cleared to absent. -/
def signedSer (S : SigScheme) (sk : Bytes) (m : Manifest) : Bytes :=
  bincodeManifest { m with sender_pubkey := some (S.pubkey sk), sender_sig := none }

/-- Manifest verify_with_pubkey: require a 64-byte signature, serialize a
copy with the signature cleared, verify under the supplied key; any
verification failure surfaces as InvalidSignature. -/
def verify_with_pubkey (S : SigScheme) (m : Manifest) (pk : Bytes) : Except VerifyErr Unit :=
  match m.sender_sig with
  | none => .error .missingSignature
  | some sig =>
    if sig.length ≠ 64 then .error .invalidSigLength
    else if S.verify pk (bincodeManifest { m with sender_sig := none }) sig
    then .ok ()
    else .error .invalidSignature

/-- Manifest verify: require the signature and the stored sender public key,
require a 32-byte key, then verify with that key. -/
def verifyManifest (S : SigScheme) (m : Manifest) : Except VerifyErr Unit :=
  match m.sender_sig with
  | none => .error .missingSignature
  | some _ =>
    match m.sender_pubkey with
    | none => .error .missingPubkey
    | some pk =>
      if pk.length ≠ 32 then .error .invalidPubkeyLength
      else verify_with_pubkey S m pk

/-- Components of a path split at every slash. -/
def splitSlash : Str → List Str
  | [] => [[]]
  | c :: rest =>
    if c = '/' then [] :: splitSlash rest
    else
      match splitSlash rest with
      | [] => [[c]]
      | h :: t => (c :: h) :: t

/-- Final path component in the sense of Rust Path file_name: the last
component after dropping empty and current-directory components, and none
when the path ends in a parent-directory component or has no component. -/
def rustFileName (p : Str) : Option Str :=
  match ((splitSlash p).filter (fun c => !c.isEmpty && c ≠ ['.'])).getLast? with
  | none => none
  | some c => if c = ['.', '.'] then none else some c

/-- Manifest from_file: the size is the file length at open time, each
window of chunk_size bytes is hashed into chunk_hashes, the filename is the
path basename with the whole path as fallback, signature fields absent. -/
def from_file (path : Str) (contents : Bytes) (chunk_size : Nat) : Manifest :=
  { filename := (rustFileName path).getD path
    size := contents.length
    chunk_hashes := (chunksOf chunk_size contents).map sha256Hex
    sender_sig := none
    sender_pubkey := none }

/-!
Framed transport and handshake (crates/openshare-core/src/handshake.rs).
A transport direction is a byte string; writing produces the emitted bytes
and reading consumes a prefix and returns the remainder.  X25519 is
abstracted as a function-valued Diffie-Hellman scheme; HKDF-SHA256 is the
concrete function above.
-/
/-- The 10 MiB sanity bound on a declared frame length. -/
def FRAME_MAX : Nat := 10 * 1024 * 1024

/-- Frame-level errors of the length-prefixed helpers. -/
inductive FrameErr
  | unexpectedEof
  | frameTooLarge
  deriving Repr, DecidableEq

/-- Length-prefixed frame write: the payload length as a 32-bit big-endian
prefix (the usize-to-u32 cast truncates modulo 2^32), then the payload. -/
def write_lp (data : Bytes) : Bytes := w32be (data.length % M32) ++ data

/-- Length-prefixed frame read: take 4 length bytes, reject a declared
length above 10 MiB before touching the payload, then take exactly that
many payload bytes; a short read is an unexpected end of stream. -/
def read_lp (s : Bytes) : Except FrameErr (Bytes × Bytes) :=
  match s with
  | a :: b :: c :: d :: rest =>
    let len := ((a * 256 + b) * 256 + c) * 256 + d
    if FRAME_MAX < len then .error .frameTooLarge
    else if rest.length < len then .error .unexpectedEof
    else .ok (rest.take len, rest.drop len)
  | _ => .error .unexpectedEof

/-- An X25519-style Diffie-Hellman scheme: public key from an ephemeral
secret, and the shared secret from a secret and a peer public key. -/
structure DHScheme where
  pub : Bytes → Bytes
  dh : Bytes → Bytes → Bytes

/-- A session as the handshake constructs it: the derived 32-byte key (the
AEAD instance is determined by the same bytes). -/
structure Session where
  session_key : Bytes
  deriving Repr, DecidableEq

/-- Handshake errors: an I/O error from the framing layer, or a crypto
error with a message. -/
inductive HsErr
  | ioErr (e : FrameErr)
  | cryptoErr (msg : String)
  deriving Repr, DecidableEq

/-- A handshake message: ephemeral public key, then the 32-byte nonce, then
the identity signature over ephemeral-key-and-nonce.  Initiator and
responder build their messages identically. -/
def hsMsg (S : SigScheme) (D : DHScheme) (idSk xSk nonce : Bytes) : Bytes :=
  D.pub xSk ++ nonce ++ S.sign idSk (D.pub xSk ++ nonce)

/-- Initiator handshake over one inbound direction: emit the initiator
message as a frame, read the responder frame, require 128 bytes, extract
the peer ephemeral key and nonce, compute the shared secret (never
inspected for the all-zero value), and derive the session key from
HKDF-SHA256 with info nonce_a then nonce_b.  Returns the bytes written and
the session. -/
def initiator_handshake (S : SigScheme) (D : DHScheme) (idSk xSk nonce_a : Bytes)
    (input : Bytes) : Except HsErr (Bytes × Session) :=
  let out := write_lp (hsMsg S D idSk xSk nonce_a)
  match read_lp input with
  | .error e => .error (.ioErr e)
  | .ok (buf, _) =>
    if buf.length < 32 + 32 + 64 then .error (.cryptoErr "peer message too short")
    else
      let x_b := buf.take 32
      let nonce_b := (buf.drop 32).take 32
      let shared := D.dh xSk x_b
      .ok (out, ⟨hkdfSha256 shared (nonce_a ++ nonce_b)⟩)

/-- Responder handshake, symmetrical: read the initiator frame, require 128
bytes, extract the peer ephemeral key and nonce, emit the responder
message, compute the shared secret (never inspected), derive the session
key with info nonce_a then nonce_b — the initiator nonce still first. -/
def responder_handshake (S : SigScheme) (D : DHScheme) (idSk xSk nonce_b : Bytes)
    (input : Bytes) : Except HsErr (Bytes × Session) :=
  match read_lp input with
  | .error e => .error (.ioErr e)
  | .ok (buf, _) =>
    if buf.length < 32 + 32 + 64 then .error (.cryptoErr "initiator message too short")
    else
      let x_a := buf.take 32
      let nonce_a := (buf.drop 32).take 32
      let out := write_lp (hsMsg S D idSk xSk nonce_b)
      let shared := D.dh xSk x_a
      .ok (out, ⟨hkdfSha256 shared (nonce_a ++ nonce_b)⟩)

/-!
Receiver chunk loop (crates/openshare-core/src/client.rs, accept_and_receive
lines 95-121).  Encrypted frames are modelled by the plaintext sequence the
session decrypts them to; one frame is consumed per manifest entry.  The
returned trace records, per index, the stored id for a stored chunk and
none for a hash mismatch that was skipped.
-/
/-- Receive-loop errors: a failed encrypted-frame read (stream exhausted). -/
inductive RecvErr
  | readFrame (e : FrameErr)
  deriving Repr, DecidableEq

/-- The receiver chunk loop: for each expected hash, read one frame, hash
it; on mismatch log and continue without storing; on match store the chunk
and record the stored id (asserted against the expected hash only by a
warning). -/
def recvChunks : List Str → List Bytes → FS → Except RecvErr (FS × List (Option Str))
  | [], _, fs => .ok (fs, [])
  | _ :: _, [], _ => .error (.readFrame .unexpectedEof)
  | h :: hs, chunk :: rest, fs =>
    if sha256Hex chunk ≠ h then
      match recvChunks hs rest fs with
      | .error e => .error e
      | .ok (fs', tr) => .ok (fs', none :: tr)
    else
      match recvChunks hs rest (put_chunk fs chunk).1 with
      | .error e => .error e
      | .ok (fs', tr) => .ok (fs', some (put_chunk fs chunk).2 :: tr)

/-- The body of accept_and_receive after the manifest frame has been read
and deserialized: with no verification of the manifest signature, run the
chunk loop and return the manifest. -/
def accept_body (m : Manifest) (frames : List Bytes) (fs : FS) :
    Except RecvErr (Manifest × FS × List (Option Str)) :=
  match recvChunks m.chunk_hashes frames fs with
  | .error e => .error e
  | .ok (fs', tr) => .ok (m, fs', tr)

/-- A toy deterministic signature scheme used to witness the abstract
hypotheses: the public key is the first 32 bytes of the secret key, and a
signature is the public key followed by the SHA-256 of the message. -/
def toySig : SigScheme :=
  ⟨fun sk => sk.take 32,
   fun sk msg => sk.take 32 ++ sha256 msg,
   fun pk msg sig => sig == pk ++ sha256 msg⟩

/-- A toy commutative Diffie-Hellman scheme for witnesses: the public key
is the secret itself and the shared secret multiplies the two byte strings
pointwise modulo 256. -/
def toyDH : DHScheme :=
  ⟨fun sk => sk, fun sk p => List.zipWith (fun a b => a * b % 256) sk p⟩

/-- A Diffie-Hellman scheme whose shared secret is always the 32 zero
bytes, modelling an exchange with a small-order peer point. -/
def zeroDH : DHScheme := ⟨fun sk => sk, fun _ _ => List.replicate 32 0⟩

/-- A store is content-addressed when every entry sits at the chunk path of
the SHA-256 hex id of its own contents. -/
def goodFS (fs : FS) : Prop := ∀ kv ∈ fs, kv.1 = chunk_path (sha256Hex kv.2)

example : sha256 [] =
    [227, 176, 196, 66, 152, 252, 28, 20, 154, 251, 244, 200, 153, 111, 185, 36,
     39, 174, 65, 228, 100, 155, 147, 76, 164, 149, 153, 27, 120, 82, 184, 85] := by decide

example : sha256 [97, 98, 99] =
    [186, 120, 22, 191, 143, 1, 207, 234, 65, 65, 64, 222, 93, 174, 34, 35,
     176, 3, 97, 163, 150, 23, 122, 156, 180, 16, 255, 97, 242, 0, 21, 173] := by decide

example : hmacSha256 (List.replicate 20 11) [72, 105, 32, 84, 104, 101, 114, 101] =
    [176, 52, 76, 97, 216, 219, 56, 83, 92, 168, 175, 206, 175, 11, 241, 43,
     136, 29, 194, 0, 201, 131, 61, 167, 38, 233, 55, 108, 46, 50, 207, 247] := by decide

/-- The SHA-256 digest always has 32 bytes. -/
theorem sha256_length (msg : Bytes) : (sha256 msg).length = 32 := by
  simp [sha256, w32be]

/-- Every element of a big-endian word encoding is a byte. -/
theorem w32be_lt (n : Nat) : ∀ x ∈ w32be n, x < 256 := by
  simp only [w32be, List.mem_cons, List.not_mem_nil, or_false]
  omega

/-- Every element of a SHA-256 digest is a byte. -/
theorem sha256_lt (msg : Bytes) : ∀ x ∈ sha256 msg, x < 256 := by
  intro x hx
  simp only [sha256, List.append_assoc, List.mem_append] at hx
  rcases hx with h | h | h | h | h | h | h | h <;> exact w32be_lt _ _ h

/-- Hexadecimal digits land in the lowercase hexadecimal alphabet. -/
theorem hexDigit_mem (n : Nat) : hexDigit n ∈ hexChars := by
  by_cases h : n < 16
  · interval_cases n <;> decide
  · have h16 : hexChars.length ≤ n := by simp [hexChars]; omega
    rw [hexDigit, List.getD_eq_default _ _ h16]
    decide

/-- Hex encoding yields two characters per byte. -/
theorem hexEncode_length (b : Bytes) : (hexEncode b).length = 2 * b.length := by
  induction b with
  | nil => rfl
  | cons x xs ih =>
    simp only [hexEncode, List.flatMap_cons] at *
    simp [ih]
    omega

/-- Every character of a hex encoding is a lowercase hexadecimal digit. -/
theorem hexEncode_mem (b : Bytes) : ∀ c ∈ hexEncode b, c ∈ hexChars := by
  induction b with
  | nil => simp [hexEncode]
  | cons x xs ih =>
    intro c hc
    simp only [hexEncode, List.flatMap_cons, List.mem_append, List.mem_cons,
      List.not_mem_nil, or_false] at hc
    rcases hc with (rfl | rfl) | hc
    · exact hexDigit_mem _
    · exact hexDigit_mem _
    · exact ih c hc

/-- Chunk ids are 64 characters long. -/
theorem sha256Hex_length (b : Bytes) : (sha256Hex b).length = 64 := by
  simp [sha256Hex, hexEncode_length, sha256_length]

/-!
Theorems for the claims, with their helper lemmas and witnesses.
-/
/-- C5: for every byte string b, put_chunk returns the 64-character
lowercase hexadecimal encoding of SHA-256(b), and get_chunk applied to the
returned id yields exactly b. -/
theorem put_get_roundtrip (fs : FS) (b : Bytes) :
    (put_chunk fs b).2 = sha256Hex b ∧
    (put_chunk fs b).2.length = 64 ∧
    (∀ c ∈ (put_chunk fs b).2, c ∈ hexChars) ∧
    get_chunk (put_chunk fs b).1 ((put_chunk fs b).2) = .ok (some b) := by
  refine ⟨rfl, sha256Hex_length b, fun c hc => hexEncode_mem (sha256 b) c hc, ?_⟩
  simp [get_chunk, put_chunk, lookupFS]

/-- C10: signing a manifest twice with the same identity yields the same
manifest as signing it once; the second pass overwrites the sender public
key with the same bytes and recomputes the identical signature over the
serialization with the signature cleared. -/
theorem sign_idempotent (S : SigScheme) (sk : Bytes) (m : Manifest) :
    signManifest S sk (signManifest S sk m) = signManifest S sk m := rfl

/-- C4: signing then verifying succeeds; verification with a different
public key fails with InvalidSignature; and signing populates the sender
public key and the signature over the canonical serialization with the
signature cleared. -/
theorem manifest_sign_verify (S : SigScheme) (sk pk' : Bytes) (m : Manifest)
    (hpklen : (S.pubkey sk).length = 32)
    (hsiglen : (S.sign sk (signedSer S sk m)).length = 64)
    (hcorrect : S.verify (S.pubkey sk) (signedSer S sk m) (S.sign sk (signedSer S sk m)) = true)
    (hbind : S.verify pk' (signedSer S sk m) (S.sign sk (signedSer S sk m)) = true →
      pk' = S.pubkey sk)
    (hne : pk' ≠ S.pubkey sk) :
    (signManifest S sk m).sender_pubkey = some (S.pubkey sk) ∧
    (signManifest S sk m).sender_sig = some (S.sign sk (signedSer S sk m)) ∧
    verifyManifest S (signManifest S sk m) = .ok () ∧
    verify_with_pubkey S (signManifest S sk m) pk' = .error .invalidSignature := by
  have hv : verify_with_pubkey S (signManifest S sk m) (S.pubkey sk) =
      (if (S.sign sk (signedSer S sk m)).length ≠ 64 then .error .invalidSigLength
       else if S.verify (S.pubkey sk) (signedSer S sk m) (S.sign sk (signedSer S sk m))
       then .ok () else .error .invalidSignature) := rfl
  have hv' : verify_with_pubkey S (signManifest S sk m) pk' =
      (if (S.sign sk (signedSer S sk m)).length ≠ 64 then .error .invalidSigLength
       else if S.verify pk' (signedSer S sk m) (S.sign sk (signedSer S sk m))
       then .ok () else .error .invalidSignature) := rfl
  have hm : verifyManifest S (signManifest S sk m) =
      (if (S.pubkey sk).length ≠ 32 then .error .invalidPubkeyLength
       else verify_with_pubkey S (signManifest S sk m) (S.pubkey sk)) := rfl
  refine ⟨rfl, rfl, ?_, ?_⟩
  · rw [hm, if_neg (by simp [hpklen]), hv, if_neg (by simp [hsiglen]), if_pos hcorrect]
  · have hfalse : S.verify pk' (signedSer S sk m) (S.sign sk (signedSer S sk m)) = false := by
      cases hx : S.verify pk' (signedSer S sk m) (S.sign sk (signedSer S sk m)) with
      | true => exact absurd (hbind hx) hne
      | false => rfl
    rw [hv', if_neg (by simp [hsiglen]), hfalse]
    simp

/-- Witness for C4 at a concrete identity, foreign key and manifest. -/
theorem manifest_sign_verify_witness :
    verifyManifest toySig
      (signManifest toySig (List.replicate 32 0) ⟨['t'], 0, [], none, none⟩) = .ok () ∧
    verify_with_pubkey toySig
      (signManifest toySig (List.replicate 32 0) ⟨['t'], 0, [], none, none⟩)
      (List.replicate 32 1) = .error .invalidSignature := by
  have h := manifest_sign_verify toySig (List.replicate 32 0) (List.replicate 32 1)
    ⟨['t'], 0, [], none, none⟩ (by decide) (by decide) (by decide) (by decide) (by decide)
  exact ⟨h.2.2.1, h.2.2.2⟩

/-- Two ids with the same chunk path agree when the second is a 64-character
chunk id: the path determines its id. -/
theorem chunk_path_inj (id h : Str) (hlen : h.length = 64)
    (he : chunk_path id = chunk_path h) : id = h := by
  have hl := congrArg List.length he
  simp only [chunk_path, List.length_append, List.length_take, List.length_cons, hlen] at hl
  have hid : id.length = 64 := by omega
  have htl : (id.take 2).length = (h.take 2).length := by
    simp [List.length_take, hid, hlen]
  have := (List.append_inj he htl).2
  exact (List.cons_eq_cons.mp this).2

/-- Lookup misses when no entry has the key. -/
theorem lookupFS_eq_none (fs : FS) (key : Str) (hk : ∀ kv ∈ fs, kv.1 ≠ key) :
    lookupFS fs key = none := by
  induction fs with
  | nil => rfl
  | cons kv rest ih =>
    simp only [lookupFS]
    rw [if_neg (hk kv (List.mem_cons_self kv rest))]
    exact ih fun kv h => hk kv (List.mem_cons_of_mem _ h)

/-- Every entry reachable by folding puts is an initial entry or sits at the
chunk path of the hash of some stored byte string. -/
theorem foldl_put_keys (bs : List Bytes) (fs : FS) :
    ∀ kv ∈ bs.foldl (fun fs b => (put_chunk fs b).1) fs,
      kv ∈ fs ∨ ∃ b ∈ bs, kv.1 = chunk_path (sha256Hex b) := by
  induction bs generalizing fs with
  | nil => exact fun kv hkv => Or.inl hkv
  | cons b bs ih =>
    intro kv hkv
    rcases ih (put_chunk fs b).1 kv hkv with hin | ⟨c, hc, hkey⟩
    · rcases List.mem_cons.mp hin with rfl | hin
      · exact Or.inr ⟨b, List.mem_cons_self b bs, rfl⟩
      · exact Or.inl hin
    · exact Or.inr ⟨c, List.mem_cons_of_mem _ hc, hkey⟩

/-- C9: for every id under which no chunk has been stored, get_chunk
returns the distinguished absent result, never an error. -/
theorem get_chunk_missing (puts : List Bytes) (id : Str)
    (hid : ∀ b ∈ puts, sha256Hex b ≠ id) :
    get_chunk (runPuts puts) id = .ok none := by
  have hnone : lookupFS (runPuts puts) (chunk_path id) = none := by
    apply lookupFS_eq_none
    intro kv hkv hc
    rcases foldl_put_keys puts [] kv hkv with hin | ⟨b, hb, hkey⟩
    · cases hin
    · rw [hkey] at hc
      exact hid b hb (chunk_path_inj id (sha256Hex b) (sha256Hex_length b) hc.symm).symm
  simp [get_chunk, hnone]

/-- Witness for C9 at a concrete store and a fresh id. -/
theorem get_chunk_missing_witness :
    get_chunk (runPuts [[1, 2, 3]]) (sha256Hex [4]) = .ok none :=
  get_chunk_missing [[1, 2, 3]] (sha256Hex [4]) (by decide)

/-- A big-endian word encoding has four bytes. -/
theorem w32be_length (n : Nat) : (w32be n).length = 4 := by simp [w32be]

/-- Recomposing the four big-endian bytes of a value below 2^32 recovers it. -/
theorem be32_decode (n : Nat) (h : n < M32) :
    ((n / 2 ^ 24 % 256 * 256 + n / 2 ^ 16 % 256) * 256 + n / 2 ^ 8 % 256) * 256 + n % 256 = n := by
  norm_num [M32] at h ⊢
  omega

/-- Reading back a written frame recovers the payload and leaves the rest
of the stream, for payloads within the 10 MiB bound. -/
theorem read_write_frame (b rest : Bytes) (hle : b.length ≤ FRAME_MAX) :
    read_lp (write_lp b ++ rest) = .ok (b, rest) := by
  have hmax : FRAME_MAX < M32 := by norm_num [FRAME_MAX, M32]
  have hmod : b.length % M32 = b.length := Nat.mod_eq_of_lt (lt_of_le_of_lt hle hmax)
  have hdec := be32_decode b.length (lt_of_le_of_lt hle hmax)
  simp only [write_lp, w32be, hmod, List.cons_append, List.nil_append, read_lp, hdec]
  rw [if_neg (by omega), if_neg (by simp)]
  rw [List.take_left, List.drop_left]

/-- Reading back a written frame on an otherwise empty stream. -/
theorem read_write_frame_nil (b : Bytes) (hle : b.length ≤ FRAME_MAX) :
    read_lp (write_lp b) = .ok (b, []) := by
  have h := read_write_frame b [] hle
  rwa [List.append_nil] at h

/-- C6 (amended): a frame round-trips for payloads up to 10 MiB; for
payloads longer than 10 MiB but shorter than 2^32 bytes (the range the
u32 length prefix can express), the write succeeds and the read fails with
FrameTooLarge, already on the 4 length bytes alone, before any payload
byte is consumed. -/
theorem frame_roundtrip (b rest : List Nat) :
    (b.length ≤ FRAME_MAX → read_lp (write_lp b ++ rest) = .ok (b, rest)) ∧
    (FRAME_MAX < b.length → b.length < M32 →
      read_lp (write_lp b ++ rest) = .error .frameTooLarge ∧
      read_lp ((write_lp b).take 4) = .error .frameTooLarge) := by
  constructor
  · exact read_write_frame b rest
  · intro hgt hlt
    have hmod : b.length % M32 = b.length := Nat.mod_eq_of_lt hlt
    have hdec := be32_decode b.length hlt
    constructor
    · simp only [write_lp, w32be, hmod, List.cons_append, List.nil_append, read_lp, hdec]
      rw [if_pos hgt]
    · have htake : (write_lp b).take 4 = w32be (b.length % M32) := by
        rw [write_lp, ← w32be_length (b.length % M32)]
        exact List.take_left _ _
      rw [htake]
      simp only [w32be, hmod, read_lp, hdec]
      rw [if_pos hgt]

/-- Reading a stream whose four length bytes declare zero yields an empty
payload and consumes nothing further. -/
theorem read_lp_zero (l : Bytes) : read_lp (0 :: 0 :: 0 :: 0 :: l) = .ok ([], l) := by
  simp [read_lp, FRAME_MAX]

/-- Counterexample to C6 as stated: a payload of 2^32 bytes is longer than
10 MiB, yet reading back the written frame does not fail with
FrameTooLarge — the truncated length prefix declares zero bytes and the
read returns an empty payload. -/
theorem frame_roundtrip_counterexample :
    FRAME_MAX < (List.replicate (2 ^ 32) (0 : Nat)).length ∧
    read_lp (write_lp (List.replicate (2 ^ 32) (0 : Nat))) =
      .ok ([], List.replicate (2 ^ 32) (0 : Nat)) := by
  have hlen : (List.replicate (2 ^ 32) (0 : Nat)).length = 2 ^ 32 :=
    List.length_replicate _ _
  constructor
  · rw [hlen]
    norm_num [FRAME_MAX]
  · have hmod : (2 ^ 32) % M32 = 0 := by norm_num [M32]
    have hw : w32be 0 = [0, 0, 0, 0] := by norm_num [w32be]
    rw [write_lp, hlen, hmod, hw]
    exact read_lp_zero _

/-- Witness for C6 (amended) at a 5-byte payload and at a payload one byte
above the 10 MiB bound. -/
theorem frame_roundtrip_witness :
    read_lp (write_lp (List.replicate 5 7) ++ [9]) = .ok (List.replicate 5 7, [9]) ∧
    read_lp (write_lp (List.replicate (FRAME_MAX + 1) 0) ++ []) = .error .frameTooLarge := by
  refine ⟨(frame_roundtrip (List.replicate 5 7) [9]).1
    (by rw [List.length_replicate]; norm_num [FRAME_MAX]), ?_⟩
  exact ((frame_roundtrip (List.replicate (FRAME_MAX + 1) 0) []).2
    (by rw [List.length_replicate]; norm_num [FRAME_MAX])
    (by rw [List.length_replicate]; norm_num [FRAME_MAX, M32])).1

/-- Parsing a handshake message: the first 32 bytes are the ephemeral
public key, the next 32 bytes are the nonce. -/
theorem hs_parse (p n s : Bytes) (hp : p.length = 32) (hn : n.length = 32) :
    (p ++ n ++ s).take 32 = p ∧ ((p ++ n ++ s).drop 32).take 32 = n := by
  have h1 : (p ++ (n ++ s)).drop 32 = n ++ s := by
    rw [← hp, List.drop_left]
  constructor
  · rw [List.append_assoc, ← hp, List.take_left]
  · rw [List.append_assoc, h1, ← hn, List.take_left]

/-- C3: over a connected bidirectional stream carrying the two 128-byte
handshake messages, initiator and responder derive the same session key,
namely HKDF-SHA256 keyed by the shared secret with the empty salt and the
info string nonce_I then nonce_R — the initiator nonce first on both
sides. -/
theorem handshake_agreement (S : SigScheme) (D : DHScheme) (idI idR xI xR nI nR : Bytes)
    (hpubI : (D.pub xI).length = 32) (hpubR : (D.pub xR).length = 32)
    (hnI : nI.length = 32) (hnR : nR.length = 32)
    (hsigI : (S.sign idI (D.pub xI ++ nI)).length = 64)
    (hsigR : (S.sign idR (D.pub xR ++ nR)).length = 64)
    (hcomm : D.dh xI (D.pub xR) = D.dh xR (D.pub xI)) :
    (hsMsg S D idI xI nI).length = 128 ∧
    (hsMsg S D idR xR nR).length = 128 ∧
    responder_handshake S D idR xR nR (write_lp (hsMsg S D idI xI nI)) =
      .ok (write_lp (hsMsg S D idR xR nR), ⟨hkdfSha256 (D.dh xR (D.pub xI)) (nI ++ nR)⟩) ∧
    initiator_handshake S D idI xI nI (write_lp (hsMsg S D idR xR nR)) =
      .ok (write_lp (hsMsg S D idI xI nI), ⟨hkdfSha256 (D.dh xI (D.pub xR)) (nI ++ nR)⟩) ∧
    hkdfSha256 (D.dh xI (D.pub xR)) (nI ++ nR) =
      hkdfSha256 (D.dh xR (D.pub xI)) (nI ++ nR) := by
  have hlenA : (hsMsg S D idI xI nI).length = 128 := by
    simp [hsMsg, hpubI, hnI, hsigI]
  have hlenB : (hsMsg S D idR xR nR).length = 128 := by
    simp [hsMsg, hpubR, hnR, hsigR]
  have hboundA : (hsMsg S D idI xI nI).length ≤ FRAME_MAX := by
    rw [hlenA]; norm_num [FRAME_MAX]
  have hboundB : (hsMsg S D idR xR nR).length ≤ FRAME_MAX := by
    rw [hlenB]; norm_num [FRAME_MAX]
  have hparseA := hs_parse (D.pub xI) nI (S.sign idI (D.pub xI ++ nI)) hpubI hnI
  have hparseB := hs_parse (D.pub xR) nR (S.sign idR (D.pub xR ++ nR)) hpubR hnR
  refine ⟨hlenA, hlenB, ?_, ?_, by rw [hcomm]⟩
  · unfold responder_handshake
    rw [read_write_frame_nil _ hboundA]
    simp only [hsMsg] at hparseA ⊢
    rw [if_neg (by rw [hsMsg] at hlenA; omega)]
    rw [hparseA.1, hparseA.2]
  · unfold initiator_handshake
    rw [read_write_frame_nil _ hboundB]
    simp only [hsMsg] at hparseB ⊢
    rw [if_neg (by rw [hsMsg] at hlenB; omega)]
    rw [hparseB.1, hparseB.2]

/-- Witness for C3 at concrete identities, ephemeral secrets and nonces. -/
theorem handshake_agreement_witness :
    responder_handshake toySig toyDH (List.replicate 32 1) (List.replicate 32 3)
        (List.replicate 32 5)
        (write_lp (hsMsg toySig toyDH (List.replicate 32 0) (List.replicate 32 2)
          (List.replicate 32 4))) =
      .ok (write_lp (hsMsg toySig toyDH (List.replicate 32 1) (List.replicate 32 3)
          (List.replicate 32 5)),
        ⟨hkdfSha256 (toyDH.dh (List.replicate 32 3) (toyDH.pub (List.replicate 32 2)))
          (List.replicate 32 4 ++ List.replicate 32 5)⟩) ∧
    hkdfSha256 (toyDH.dh (List.replicate 32 2) (toyDH.pub (List.replicate 32 3)))
        (List.replicate 32 4 ++ List.replicate 32 5) =
      hkdfSha256 (toyDH.dh (List.replicate 32 3) (toyDH.pub (List.replicate 32 2)))
        (List.replicate 32 4 ++ List.replicate 32 5) := by
  have h := handshake_agreement toySig toyDH (List.replicate 32 0) (List.replicate 32 1)
    (List.replicate 32 2) (List.replicate 32 3) (List.replicate 32 4) (List.replicate 32 5)
    (by decide) (by decide) (by decide) (by decide) (by decide) (by decide) (by decide)
  exact ⟨h.2.2.1, h.2.2.2.2⟩

/-- C2 fails on the code: even when the X25519 result is all-zero, both
handshake sides construct a session — the shared secret is fed to HKDF
without any contributory check. -/
theorem handshake_zero_shared_not_rejected :
    zeroDH.dh (List.replicate 32 2)
        ((hsMsg toySig zeroDH (List.replicate 32 1) (List.replicate 32 3)
          (List.replicate 32 5)).take 32) = List.replicate 32 0 ∧
    (initiator_handshake toySig zeroDH (List.replicate 32 0) (List.replicate 32 2)
        (List.replicate 32 4)
        (write_lp (hsMsg toySig zeroDH (List.replicate 32 1) (List.replicate 32 3)
          (List.replicate 32 5)))).isOk = true ∧
    (responder_handshake toySig zeroDH (List.replicate 32 1) (List.replicate 32 3)
        (List.replicate 32 5)
        (write_lp (hsMsg toySig zeroDH (List.replicate 32 0) (List.replicate 32 2)
          (List.replicate 32 4)))).isOk = true := by
  refine ⟨rfl, ?_, ?_⟩ <;> decide

/-- C1 fails on the code: the receive path never verifies the manifest.
A manifest with no signature (whose verification fails with a missing
signature) is accepted, its chunk frame is read, and the chunk is stored. -/
theorem accept_without_verification :
    verifyManifest toySig ⟨['t'], 3, [sha256Hex [1, 2, 3]], none, none⟩ =
      .error .missingSignature ∧
    accept_body ⟨['t'], 3, [sha256Hex [1, 2, 3]], none, none⟩ [[1, 2, 3]] [] =
      .ok (⟨['t'], 3, [sha256Hex [1, 2, 3]], none, none⟩,
        [(chunk_path (sha256Hex [1, 2, 3]), [1, 2, 3])],
        [some (sha256Hex [1, 2, 3])]) := by
  constructor
  · rfl
  · simp [accept_body, recvChunks, put_chunk]

/-- Putting a chunk preserves content-addressing: the new entry is keyed by
the hash of its contents. -/
theorem goodFS_put (fs : FS) (c : Bytes) (hfs : goodFS fs) : goodFS (put_chunk fs c).1 := by
  intro kv hkv
  rcases List.mem_cons.mp hkv with rfl | hkv
  · rfl
  · exact hfs kv hkv

/-- C8: with one frame available per expected hash, the receive loop
succeeds; its trace stores the i-th received chunk if and only if the
chunk hashes to chunk_hashes i, a mismatched chunk is skipped and the loop
continues, a stored id always equals the expected hash, and the final
store remains content-addressed. -/
theorem recv_chunks_spec (hashes : List Str) (frames : List Bytes) (fs : FS)
    (hlen : hashes.length ≤ frames.length) (hfs : goodFS fs) :
    ∃ fs' tr, recvChunks hashes frames fs = .ok (fs', tr) ∧
      goodFS fs' ∧
      tr.length = hashes.length ∧
      ∀ i < hashes.length,
        (tr.getD i none = some (hashes.getD i []) ↔
          sha256Hex (frames.getD i []) = hashes.getD i []) ∧
        (sha256Hex (frames.getD i []) ≠ hashes.getD i [] → tr.getD i none = none) ∧
        (tr.getD i none = none ∨ tr.getD i none = some (hashes.getD i [])) := by
  induction hashes generalizing frames fs with
  | nil =>
    exact ⟨fs, [], rfl, hfs, rfl, fun i hi => absurd hi (by simp)⟩
  | cons h hs ih =>
    cases frames with
    | nil => simp at hlen
    | cons c cs =>
      have hlen' : hs.length ≤ cs.length := by simpa using hlen
      by_cases hc : sha256Hex c ≠ h
      · obtain ⟨fs', tr, hrec, hgood, htrlen, hspec⟩ := ih cs fs hlen' hfs
        refine ⟨fs', none :: tr, ?_, hgood, by simp [htrlen], ?_⟩
        · simp [recvChunks, if_pos hc, hrec]
        · intro i hi
          cases i with
          | zero =>
            refine ⟨⟨fun hx => absurd hx (by simp), fun hx => absurd hx (by simpa using hc)⟩,
              fun _ => rfl, Or.inl rfl⟩
          | succ j => exact hspec j (by simpa using hi)
      · push_neg at hc
        obtain ⟨fs', tr, hrec, hgood, htrlen, hspec⟩ :=
          ih cs (put_chunk fs c).1 hlen' (goodFS_put fs c hfs)
        refine ⟨fs', some (sha256Hex c) :: tr, ?_, hgood, by simp [htrlen], ?_⟩
        · simp only [put_chunk, hc] at hrec
          simp [recvChunks, hc, hrec, put_chunk]
        · intro i hi
          cases i with
          | zero =>
            refine ⟨⟨fun _ => by simpa using hc, fun _ => by simpa using hc⟩,
              fun hx => absurd hc hx, Or.inr (by simpa using hc)⟩
          | succ j => exact hspec j (by simpa using hi)

/-- Witness for C8 at one matching and one mismatching chunk. -/
theorem recv_chunks_spec_witness :
    ∃ fs' tr, recvChunks [sha256Hex [1], sha256Hex [9]] [[1], [2]] [] = .ok (fs', tr) ∧
      goodFS fs' ∧
      tr.length = [sha256Hex [1], sha256Hex [9]].length ∧
      ∀ i < [sha256Hex [1], sha256Hex [9]].length,
        (tr.getD i none = some ([sha256Hex [1], sha256Hex [9]].getD i []) ↔
          sha256Hex ([[1], [2]].getD i []) = [sha256Hex [1], sha256Hex [9]].getD i []) ∧
        (sha256Hex ([[1], [2]].getD i []) ≠ [sha256Hex [1], sha256Hex [9]].getD i [] →
          tr.getD i none = none) ∧
        (tr.getD i none = none ∨
          tr.getD i none = some ([sha256Hex [1], sha256Hex [9]].getD i [])) :=
  recv_chunks_spec [sha256Hex [1], sha256Hex [9]] [[1], [2]] [] (by decide)
    (fun kv hkv => absurd hkv (by simp))

/-- The window loop is insensitive to the iteration budget once the budget
covers the list length. -/
theorem chunksOfAux_congr {α : Type} (cs : Nat) :
    ∀ (f g : Nat) (l : List α), l.length ≤ f → l.length ≤ g →
      chunksOfAux cs f l = chunksOfAux cs g l := by
  intro f
  induction f with
  | zero =>
    intro g l hf hg
    have : l = [] := List.eq_nil_of_length_eq_zero (by omega)
    subst this
    cases g <;> rfl
  | succ f ih =>
    intro g l hf hg
    cases l with
    | nil => cases g <;> rfl
    | cons x xs =>
      cases g with
      | zero => simp at hg
      | succ g =>
        by_cases hcs : cs = 0
        · simp [chunksOfAux, hcs]
        · rw [chunksOfAux, chunksOfAux, if_neg hcs, if_neg hcs]
          have hd : (List.drop cs (x :: xs)).length ≤ f := by
            simp only [List.length_drop, List.length_cons] at *
            omega
          have hd' : (List.drop cs (x :: xs)).length ≤ g := by
            simp only [List.length_drop, List.length_cons] at *
            omega
          rw [ih g (List.drop cs (x :: xs)) hd hd']

/-- Unfolding of the window split on a nonempty list with a positive
window size. -/
theorem chunksOf_cons {α : Type} (cs : Nat) (hcs : cs ≠ 0) (x : α) (xs : List α) :
    chunksOf cs (x :: xs) =
      List.take cs (x :: xs) :: chunksOf cs (List.drop cs (x :: xs)) := by
  rw [chunksOf, chunksOf]
  simp only [List.length_cons]
  rw [chunksOfAux, if_neg hcs]
  have hd : (List.drop cs (x :: xs)).length ≤ xs.length := by
    simp only [List.length_drop, List.length_cons]
    omega
  rw [chunksOfAux_congr cs xs.length (List.drop cs (x :: xs)).length _ hd le_rfl]

/-- The i-th window of the split is the i-th chunk-size window of the
list, present exactly while the window start lies inside the list. -/
theorem chunksOf_getElem? {α : Type} (cs : Nat) (hcs : 0 < cs) :
    ∀ (i : Nat) (l : List α),
      (chunksOf cs l)[i]? =
        if i * cs < l.length then some ((l.drop (i * cs)).take cs) else none := by
  intro i
  induction i with
  | zero =>
    intro l
    cases l with
    | nil => simp [chunksOf, chunksOfAux]
    | cons x xs =>
      rw [chunksOf_cons cs (by omega)]
      simp
  | succ j ih =>
    intro l
    cases l with
    | nil => simp [chunksOf, chunksOfAux]
    | cons x xs =>
      rw [chunksOf_cons cs (by omega)]
      simp only [List.getElem?_cons_succ]
      rw [ih (List.drop cs (x :: xs))]
      rw [List.length_drop, List.drop_drop]
      have harith : (j + 1) * cs = j * cs + cs := by ring
      rw [harith]
      by_cases hcond : j * cs + cs < (x :: xs).length
      · rw [if_pos (by generalize j * cs = m at hcond ⊢; omega),
          if_pos hcond, Nat.add_comm cs (j * cs)]
      · rw [if_neg (by generalize j * cs = m at hcond ⊢; omega),
          if_neg hcond]

/-- The chunk hash list of a window split equals the hash of each
chunk-size window of the list, indexed in order. -/
theorem chunksOf_map_sha (cs : Nat) (hcs : 0 < cs) (l : Bytes) :
    (chunksOf cs l).map sha256Hex =
      (List.range ((l.length + cs - 1) / cs)).map
        (fun i => sha256Hex ((l.drop (i * cs)).take cs)) := by
  apply List.ext_getElem?
  intro i
  rw [List.getElem?_map, List.getElem?_map, chunksOf_getElem? cs hcs i l]
  have hiff : i * cs < l.length ↔ i < (l.length + cs - 1) / cs := by
    have h1 : (i + 1) * cs = i * cs + cs := by ring
    have h2 := @Nat.le_div_iff_mul_le cs (i + 1) (l.length + cs - 1) hcs
    rw [h1] at h2
    constructor
    · intro h
      exact h2.mpr (by generalize hm : i * cs = m at h ⊢; omega)
    · intro h
      have h3 := h2.mp h
      generalize hm : i * cs = m at h3 ⊢
      omega
  by_cases hcond : i * cs < l.length
  · rw [if_pos hcond, List.getElem?_range (hiff.mp hcond)]
    rfl
  · rw [if_neg hcond]
    have hnone : (List.range ((l.length + cs - 1) / cs))[i]? = none := by
      apply List.getElem?_eq_none
      rw [List.length_range]
      have h2 : ¬ i < (l.length + cs - 1) / cs := fun hlt => hcond (hiff.mpr hlt)
      omega
    rw [hnone]
    rfl

/-- No component produced by splitting at slashes contains a slash. -/
theorem splitSlash_no_slash : ∀ (p : Str), ∀ c ∈ splitSlash p, '/' ∉ c := by
  intro p
  induction p with
  | nil =>
    intro c hc
    simp only [splitSlash, List.mem_singleton] at hc
    subst hc
    simp
  | cons a rest ih =>
    intro c hc
    by_cases ha : a = '/'
    · subst ha
      rw [splitSlash, if_pos rfl] at hc
      rcases List.mem_cons.mp hc with rfl | hc
      · simp
      · exact ih c hc
    · rw [splitSlash, if_neg ha] at hc
      cases hsp : splitSlash rest with
      | nil =>
        rw [hsp] at hc
        simp only [List.mem_singleton] at hc
        subst hc
        simp [Ne.symm ha]
      | cons hh tt =>
        rw [hsp] at hc
        rcases List.mem_cons.mp hc with rfl | hc
        · intro hmem
          rcases List.mem_cons.mp hmem with h1 | h1
          · exact ha h1.symm
          · exact ih hh (hsp ▸ List.mem_cons_self hh tt) h1
        · exact ih c (hsp ▸ List.mem_cons_of_mem hh hc)

/-- A defined Rust file name is slash-free: it is one of the slash-split
components of the path. -/
theorem rustFileName_no_slash (p base : Str) (hb : rustFileName p = some base) :
    '/' ∉ base := by
  unfold rustFileName at hb
  cases hgl : ((splitSlash p).filter (fun c => !c.isEmpty && c ≠ ['.'])).getLast? with
  | none => rw [hgl] at hb; cases hb
  | some c =>
    rw [hgl] at hb
    have hb2 : (if c = ['.', '.'] then none else some c) = some base := hb
    by_cases hdd : c = ['.', '.']
    · rw [if_pos hdd] at hb2; cases hb2
    · rw [if_neg hdd] at hb2
      have hcb : c = base := by injection hb2
      subst hcb
      have hmem := List.mem_of_mem_getLast? hgl
      exact splitSlash_no_slash p c (List.mem_filter.mp hmem).1

/-- C7: manifest construction records the file length as size, hashes the
consecutive chunk-size windows of the contents in order (only the final
window may be shorter, as the window characterization shows), uses the
slash-free basename of the path as filename, leaves the signature fields
absent, and yields no hashes for an empty file. -/
theorem from_file_spec (path : Str) (contents : Bytes) (cs : Nat) (base : Str)
    (hcs : 0 < cs) (hbase : rustFileName path = some base) :
    (from_file path contents cs).size = contents.length ∧
    (from_file path contents cs).filename = base ∧
    '/' ∉ (from_file path contents cs).filename ∧
    (from_file path contents cs).sender_sig = none ∧
    (from_file path contents cs).sender_pubkey = none ∧
    (from_file path contents cs).chunk_hashes =
      (List.range ((contents.length + cs - 1) / cs)).map
        (fun i => sha256Hex ((contents.drop (i * cs)).take cs)) ∧
    (contents = [] → (from_file path contents cs).chunk_hashes = []) := by
  have hfn : (from_file path contents cs).filename = base := by
    simp [from_file, hbase]
  refine ⟨rfl, hfn, ?_, rfl, rfl, ?_, ?_⟩
  · rw [hfn]
    exact rustFileName_no_slash path base hbase
  · exact chunksOf_map_sha cs hcs contents
  · intro h
    subst h
    rfl

/-- Witness for C7 at a two-component path and a five-byte file split in
windows of two. -/
theorem from_file_spec_witness :
    (from_file ['a', '/', 'b'] [1, 2, 3, 4, 5] 2).size = 5 ∧
    (from_file ['a', '/', 'b'] [1, 2, 3, 4, 5] 2).filename = ['b'] ∧
    (from_file ['a', '/', 'b'] [1, 2, 3, 4, 5] 2).chunk_hashes =
      (List.range 3).map
        (fun i => sha256Hex ((([1, 2, 3, 4, 5] : Bytes).drop (i * 2)).take 2)) := by
  have h := from_file_spec ['a', '/', 'b'] [1, 2, 3, 4, 5] 2 ['b'] (by decide) (by decide)
  exact ⟨h.1, h.2.1, h.2.2.2.2.2.1⟩

end OpenShare
